import Mathlib

/- Shallow embedding of ejfeldman7/abac_helper (Python). Strings are modelled as
Lean String / List Char; dates as Int day numbers; the external warehouse calls
(execute_query / execute_update) as explicit parameters or outcome values. -/

/-- Single-quote character (ASCII 39), used when rendering SQL literals. -/
def sqc : Char := Char.ofNat 39

/-- Single-quote as a one-character string. -/
def sqs : String := String.singleton sqc

/-- Characters removed by Python str.strip (ASCII whitespace). -/
def pyIsSpace (c : Char) : Bool :=
  c = ' ' || c = '\t' || c = '\n' || c = '\r' || c = Char.ofNat 11 || c = Char.ofNat 12

/-- Python str.strip: drop leading and trailing whitespace characters. -/
def pyStrip (l : List Char) : List Char :=
  ((l.dropWhile pyIsSpace).reverse.dropWhile pyIsSpace).reverse

/-- Python str.split(sep) for a one-character separator: split at every
occurrence of sep, keeping empty parts. -/
def pySplit (sep : Char) : List Char → List (List Char)
  | [] => [[]]
  | c :: rest =>
    if c = sep then [] :: pySplit sep rest
    else
      match pySplit sep rest with
      | [] => [[c]]
      | p :: ps => (c :: p) :: ps

/-- Split a list at the first occurrence of sep; none when sep does not occur.
Models Python str.split(sep, maxsplit=1) in the case the separator is present. -/
def splitOnce (sep : Char) : List Char → Option (List Char × List Char)
  | [] => none
  | c :: rest =>
    if c = sep then some ([], rest)
    else (splitOnce sep rest).map (fun p => (c :: p.1, p.2))

/-- Python sep.join for a one-character separator. -/
def pyJoin (sep : Char) : List (List Char) → List Char
  | [] => []
  | [t] => t
  | t :: ts => t ++ sep :: pyJoin sep ts

/-- Digit accumulation for Python int(): decimal digits with underscore grouping,
an underscore must sit between two digits. Accumulates most significant first. -/
def pyDigitsGo (acc : Nat) : List Char → Option Nat
  | [] => some acc
  | c :: rest =>
    if c = '_' then
      match rest with
      | [] => none
      | d :: rest2 =>
        if d.isDigit then pyDigitsGo (10 * acc + (d.toNat - 48)) rest2 else none
    else if c.isDigit then pyDigitsGo (10 * acc + (c.toNat - 48)) rest
    else none

/-- Python int() on a string: strip whitespace, optional sign, decimal digits
with underscore grouping; none where Python raises ValueError. -/
def pyInt (s : List Char) : Option Int :=
  match pyStrip s with
  | [] => none
  | '-' :: rest =>
    match rest with
    | [] => none
    | d :: _ =>
      if d.isDigit then (pyDigitsGo 0 rest).map (fun n => -(Int.ofNat n)) else none
  | '+' :: rest =>
    match rest with
    | [] => none
    | d :: _ =>
      if d.isDigit then (pyDigitsGo 0 rest).map (fun n => Int.ofNat n) else none
  | c :: rest =>
    if c.isDigit then (pyDigitsGo 0 (c :: rest)).map (fun n => Int.ofNat n) else none

/-- Decimal digits of a natural number, most significant first (Python str()). -/
def natDigits (n : Nat) : List Char :=
  if h : n < 10 then [Char.ofNat (48 + n)]
  else natDigits (n / 10) ++ [Char.ofNat (48 + n % 10)]
termination_by n
decreasing_by exact Nat.div_lt_self (by omega) (by omega)

/-- Python str() of an int. -/
def pyStrInt (i : Int) : List Char :=
  if i < 0 then '-' :: natDigits (-i).toNat else natDigits i.toNat

/-- Errors arising inside the token loop of parse_customer_ids: a reversed
range (early return) or a ValueError raised by int(). Each carries the token
named by the resulting message. -/
inductive PErr
  | range : List Char → PErr
  | badInt : List Char → PErr
deriving DecidableEq

/-- Python sorted(set(ids)) on a list of ints: the ascending list of the
distinct elements. -/
def sortedSet (l : List Int) : List Int :=
  List.insertionSort (fun a b => a ≤ b) l.dedup

/-- Python range(start, end+1) as a list of Int. -/
def rangeInts (a b : Int) : List Int :=
  (List.range (b + 1 - a).toNat).map (fun k => a + Int.ofNat k)

/-- The token loop of parse_customer_ids (utils/validators.py lines 26-40) over
the comma-separated parts: strip each part, skip empty parts, treat a part
containing a dash as an inclusive range, otherwise as a single integer. -/
def processParts : List (List Char) → Except PErr (List Int)
  | [] => Except.ok []
  | p :: rest =>
    let part := pyStrip p
    if part = [] then processParts rest
    else
      match splitOnce '-' part with
      | some (startRaw, endRaw) =>
        match pyInt (pyStrip startRaw) with
        | none => Except.error (PErr.badInt (pyStrip startRaw))
        | some a =>
          match pyInt (pyStrip endRaw) with
          | none => Except.error (PErr.badInt (pyStrip endRaw))
          | some b =>
            if b < a then Except.error (PErr.range part)
            else
              match processParts rest with
              | Except.error err => Except.error err
              | Except.ok ids => Except.ok (rangeInts a b ++ ids)
      | none =>
        match pyInt part with
        | none => Except.error (PErr.badInt part)
        | some v =>
          match processParts rest with
          | Except.error err => Except.error err
          | Except.ok ids => Except.ok (v :: ids)

/-- The Python error messages of parse_customer_ids for the two loop errors. -/
def perrMessage : PErr → String
  | PErr.range part => "Invalid range " ++ String.mk part
  | PErr.badInt tok =>
      "Invalid customer ID format: invalid literal for int() with base 10: "
        ++ sqs ++ String.mk tok ++ sqs

/-- parse_customer_ids from utils/validators.py: empty or whitespace-only input
parses to the empty list; otherwise the comma-separated tokens are processed
and on success the sorted unique ids are returned. -/
def parse_customer_ids (s : String) : Except String (List Int) :=
  if s.toList = [] ∨ pyStrip s.toList = [] then Except.ok []
  else
    match processParts (pySplit ',' s.toList) with
    | Except.error e => Except.error (perrMessage e)
    | Except.ok ids => Except.ok (sortedSet ids)

/-- normalize_customer_ids from utils/validators.py: sorted list of unique ids
(the int() coercion is the identity on ints). -/
def normalize_customer_ids (values : List Int) : List Int :=
  sortedSet values

example : parse_customer_ids "" = Except.ok [] := by rfl
example : parse_customer_ids "   " = Except.ok [] := by rfl
example : parse_customer_ids "3-5" = Except.ok [3, 4, 5] := by rfl
example : parse_customer_ids "5-3" = Except.error ("Invalid range " ++ "5-3") := by rfl
example : parse_customer_ids "1,,2," = Except.ok [1, 2] := by rfl
example : parse_customer_ids "1,2,5-8" = Except.ok [1, 2, 5, 6, 7, 8] := by rfl
example : parse_customer_ids "2, 1, 2" = Except.ok [1, 2] := by rfl
example : parse_customer_ids "abc" =
    Except.error ("Invalid customer ID format: invalid literal for int() with base 10: "
      ++ sqs ++ "abc" ++ sqs) := by rfl
example : normalize_customer_ids [3, 1, 3] = [1, 3] := by rfl

/-- An audit record as produced by utils/audit_logger.py log_action (the
timestamp and acting user are set by the store; omitted here). -/
structure AuditEntry where
  action_type : String
  object_type : String
  object_name : String
  old_value : Option String
  new_value : Option String
  notes : Option String
deriving DecidableEq

/-- The customer_ids fragment interpolated into the INSERT and UPDATE
statements of utils/access_manager.py (lines 60-62 and 112-114):
"array(...)" when the normalized list is non-empty, "NULL" otherwise. -/
def customer_ids_array (normalized_ids : List Int) : String :=
  if normalized_ids = [] then "NULL"
  else "array(" ++ String.mk (pyJoin ',' (normalized_ids.map pyStrInt)) ++ ")"

/-- The variable parts of the INSERT statement built by add_access_rule: the
target table and the interpolated customer_ids fragment (the surrounding SQL
text is a fixed template). -/
structure InsertAccessRuleStmt where
  table : String
  customerIdsSql : String
deriving DecidableEq

/-- The variable parts of the UPDATE statement built by update_access_rule. -/
structure UpdateAccessRuleStmt where
  table : String
  customerIdsSql : String
deriving DecidableEq

/-- Statement construction of add_access_rule (utils/access_manager.py 48-96). -/
def add_access_rule_stmt (tableFqn : String) (customer_ids : List Int) : InsertAccessRuleStmt :=
  { table := tableFqn
    customerIdsSql := customer_ids_array (normalize_customer_ids customer_ids) }

/-- Statement construction of update_access_rule (utils/access_manager.py 99-148). -/
def update_access_rule_stmt (tableFqn : String) (customer_ids : List Int) : UpdateAccessRuleStmt :=
  { table := tableFqn
    customerIdsSql := customer_ids_array (normalize_customer_ids customer_ids) }

/-- The customer_ids value persisted by the INSERT/UPDATE statement: SQL NULL
(none) exactly when the fragment is "NULL", else the normalized array. -/
def storedCustomerIds (customer_ids : List Int) : Option (List Int) :=
  if normalize_customer_ids customer_ids = [] then none
  else some (normalize_customer_ids customer_ids)

/-- Control flow of add_access_rule around its execute_update call: the
function has no try/except, so a raising execute_update (modelled as
Except.error) propagates; on success the function returns True after logging
an INSERT audit entry. -/
def add_access_rule_run (updateOutcome : Except String Nat) : Except String (Bool × List AuditEntry) :=
  match updateOutcome with
  | Except.error e => Except.error e
  | Except.ok _ =>
      Except.ok (true,
        [{ action_type := "INSERT", object_type := "GROUP_ACCESS",
           object_name := "", old_value := none, new_value := none, notes := none }])

/-- A stored access-rule row as observed by the DELETE statement of
delete_access_rule (only id and expiration_date appear in its WHERE clause). -/
structure RuleRow where
  id : Int
  expiration_date : Option Int
deriving DecidableEq

/-- The WHERE clause of delete_access_rule's DELETE: id = :rule_id AND
expiration_date <= CURRENT_DATE(). Under SQL three-valued logic a NULL
expiration_date never satisfies the comparison. -/
def deleteMatches (today : Int) (rule_id : Int) (r : RuleRow) : Bool :=
  r.id == rule_id &&
    (match r.expiration_date with
     | none => false
     | some d => d ≤ today)

/-- Result of delete_access_rule: the surviving table, audit entries written,
and the returned boolean. -/
structure DeleteOutcome where
  remaining : List RuleRow
  audit : List AuditEntry
  result : Bool
deriving DecidableEq

/-- The DELETE audit record written by delete_access_rule. -/
def deleteAuditEntry (rule_id : Int) : AuditEntry :=
  { action_type := "DELETE", object_type := "GROUP_ACCESS"
    object_name := String.mk (pyStrInt rule_id)
    old_value := none
    new_value := some "deleted"
    notes := some "Deleted via UI after expiration" }

/-- delete_access_rule (utils/access_manager.py 174-191): run the conditional
DELETE, log a DELETE audit entry only when the affected row count is non-zero,
and return row_count > 0. -/
def delete_access_rule (today : Int) (rule_id : Int) (table : List RuleRow) : DeleteOutcome :=
  let row_count := (table.filter (deleteMatches today rule_id)).length
  { remaining := table.filter (fun r => !(deleteMatches today rule_id r))
    audit := if row_count = 0 then [] else [deleteAuditEntry rule_id]
    result := row_count > 0 }

/-- check_admin_access (utils/auth.py 28-41): the membership query outcome is
either a raised exception (error) or a list of rows, each row modelled by its
is_admin field (none for a missing key or SQL NULL, both falsy under bool()). -/
def check_admin_access (queryOutcome : Except String (List (Option Bool))) : Bool :=
  match queryOutcome with
  | Except.error _ => false
  | Except.ok [] => false
  | Except.ok (row :: _) =>
    match row with
    | none => false
    | some b => b

/-- An access rule row as read by the generated row-filter function
(pages/4_RLS_ABAC_Tools.py lines 39-53): customer_ids is NULL (none) or an
array; access_type is the stored string; dates may be NULL. -/
structure AccessRule where
  group_name : String
  customer_ids : Option (List Int)
  access_type : String
  effective_date : Option Int
  expiration_date : Option Int
deriving DecidableEq

/-- The date-window clauses of the generated filter: effective_date IS NULL OR
effective_date <= current_date(), and expiration_date IS NULL OR
expiration_date > current_date(). -/
def ruleActive (today : Int) (r : AccessRule) : Bool :=
  (match r.effective_date with
   | none => true
   | some d => d ≤ today) &&
  (match r.expiration_date with
   | none => true
   | some d => today < d)

/-- The customer-id clause of the generated filter: customer_ids IS NULL, OR
access_type = INCLUDE and the array contains the id, OR access_type = EXCLUDE
and the array does not contain it. -/
def ruleIdClause (cid : Int) (r : AccessRule) : Bool :=
  match r.customer_ids with
  | none => true
  | some ids =>
      (r.access_type == "INCLUDE" && ids.contains cid)
        || (r.access_type == "EXCLUDE" && !(ids.contains cid))

/-- Semantics of the row-filter function created by _render_function_builder:
EXISTS over the access table of rows whose group passes is_member and whose
date window and customer-id clause accept the id. -/
def customer_access_filter (isMember : String → Bool) (today : Int)
    (rules : List AccessRule) (cid : Int) : Bool :=
  rules.any (fun r => isMember r.group_name && ruleActive today r && ruleIdClause cid r)

/-- PropagationAction from utils/rls_abac_manager.py. -/
structure PropagationAction where
  table_fqn : String
  column_name : String
  tag_name : String
  tag_value : String
  sql : String
deriving DecidableEq

/-- apply_propagation (utils/rls_abac_manager.py 185-191) run against an
oracle telling which statements fail. First component: the statements passed
to execute_update, in order (a failing call raises, ending the loop). Second
component: the returned list, none when the exception propagates out. -/
def apply_propagation_run (fails : String → Bool) : List PropagationAction → List String × Option (List String)
  | [] => ([], some [])
  | a :: rest =>
    if fails a.sql then ([a.sql], none)
    else
      match apply_propagation_run fails rest with
      | (attempted, res) => (a.sql :: attempted, res.map (fun l => a.sql :: l))

/-- Backtick as a one-character string, for identifier quoting. -/
def bqs : String := String.singleton (Char.ofNat 96)

/-- _escape_sql_string: double every single quote. -/
def _escape_sql_string (value : String) : String :=
  value.replace sqs (sqs ++ sqs)

/-- _quote_identifier: wrap in backticks, doubling embedded backticks. -/
def _quote_identifier (value : String) : String :=
  bqs ++ value.replace bqs (bqs ++ bqs) ++ bqs

/-- _quote_fqn: join quoted identifier parts with dots. -/
def _quote_fqn (parts : List String) : String :=
  String.intercalate "." (parts.map _quote_identifier)

/-- _split_rls_types: comma-split a tag value, strip each item, drop empties. -/
def _split_rls_types (tag_value : String) : List String :=
  (((pySplit ',' tag_value.toList).map pyStrip).filter (fun t => t ≠ [])).map String.mk

/-- Row of system.information_schema.catalog_tags as used by the planner. -/
structure CatalogTagRow where
  catalog_name : String
  tag_value : String

/-- Row of system.information_schema.schema_tags as used by the planner. -/
structure SchemaTagRow where
  catalog_name : String
  schema_name : String
  tag_value : String

/-- Row of system.information_schema.table_tags as used by the planner. -/
structure TableTagRow where
  catalog_name : String
  schema_name : String
  table_name : String
  tag_value : String

/-- Row of system.information_schema.tables as used by the planner. -/
structure TableRow where
  table_catalog : String
  table_schema : String
  table_name : String

/-- A metadata snapshot: the results of the six read-only adapter calls of
rls_abac_manager.py, as functions of their query parameters. -/
structure Metadata where
  catalog_tags : String → Option String → List CatalogTagRow
  schema_tags : String → Option String → Option String → List SchemaTagRow
  table_tags : String → Option String → Option String → List TableTagRow
  tables_in_catalog : String → List TableRow
  tables_in_schema : String → String → List TableRow
  table_columns : String → String → String → List String

/-- The dict key built by build_propagation_plan for a table. -/
def tableKey (c s t : String) : String := c ++ "." ++ s ++ "." ++ t

/-- Insertion-ordered map from table key to accumulated category tokens,
modelling the Python dict of sets tables_to_process (the set is observed only
through membership, so it is modelled as an appending list). -/
abbrev TMap := List (String × List String)

/-- Python tables_to_process.setdefault(key, set()).update(tokens). -/
def dictUpdate (m : TMap) (k : String) (toks : List String) : TMap :=
  match m with
  | [] => [(k, toks)]
  | (k2, v) :: rest =>
    if k2 = k then (k2, v ++ toks) :: rest else (k2, v) :: dictUpdate rest k toks

/-- First binding of a key in the map. -/
def assocFind (m : TMap) (k : String) : Option (List String) :=
  match m with
  | [] => none
  | (k2, v) :: rest => if k2 = k then some v else assocFind rest k

/-- Accumulated tokens at a key, empty when absent. -/
def tokensAt (m : TMap) (k : String) : List String :=
  (assocFind m k).getD []

/-- Python table_fqn.split(".", maxsplit=2) destructured into three names.
Keys produced by tableKey always contain at least two dots, so the first two
branches (where Python would raise ValueError) are unreachable in the planner. -/
def pySplitDot2 (key : String) : String × String × String :=
  match splitOnce '.' key.toList with
  | none => (key, "", "")
  | some (a, rest) =>
    match splitOnce '.' rest with
    | none => (String.mk a, String.mk rest, "")
    | some (b, r2) => (String.mk a, String.mk b, String.mk r2)

/-- Catalog-scope accumulation step of build_propagation_plan: every table of
the tagged catalog unions in the split tag value. -/
def planFoldCatalog (meta : Metadata) (m : TMap) (row : CatalogTagRow) : TMap :=
  (meta.tables_in_catalog row.catalog_name).foldl
    (fun acc tr =>
      dictUpdate acc (tableKey tr.table_catalog tr.table_schema tr.table_name)
        (_split_rls_types row.tag_value)) m

/-- Schema-scope accumulation step of build_propagation_plan. -/
def planFoldSchema (meta : Metadata) (m : TMap) (row : SchemaTagRow) : TMap :=
  (meta.tables_in_schema row.catalog_name row.schema_name).foldl
    (fun acc tr =>
      dictUpdate acc (tableKey tr.table_catalog tr.table_schema tr.table_name)
        (_split_rls_types row.tag_value)) m

/-- Table-scope accumulation step of build_propagation_plan. -/
def planFoldTable (m : TMap) (row : TableTagRow) : TMap :=
  dictUpdate m (tableKey row.catalog_name row.schema_name row.table_name)
    (_split_rls_types row.tag_value)

/-- The tables_to_process dict after the three discovery loops of
build_propagation_plan (utils/rls_abac_manager.py 137-157). -/
def tablesToProcess (meta : Metadata) (parent_tag_name : String)
    (target_catalog target_schema : Option String) : TMap :=
  let m1 := (meta.catalog_tags parent_tag_name target_catalog).foldl (planFoldCatalog meta) []
  let m2 := (meta.schema_tags parent_tag_name target_catalog target_schema).foldl
    (planFoldSchema meta) m1
  (meta.table_tags parent_tag_name target_catalog target_schema).foldl planFoldTable m2

/-- The ALTER TABLE ... SET TAGS statement synthesized for one action. -/
def actionSql (catalog schemaName table column_name column_tag_name column_tag_value : String) : String :=
  "ALTER TABLE " ++ _quote_fqn [catalog, schemaName, table]
    ++ " ALTER COLUMN " ++ _quote_identifier column_name
    ++ " SET TAGS (" ++ sqs ++ _escape_sql_string column_tag_name ++ sqs
    ++ " = " ++ sqs ++ _escape_sql_string column_tag_value ++ sqs ++ ")"

/-- The action-emission step of build_propagation_plan for one dict entry:
skip unless the required tag is among the accumulated tokens and the column
exists on the table; otherwise emit the PropagationAction. -/
def planEntryAction (meta : Metadata)
    (required_parent_tag column_name column_tag_name column_tag_value : String)
    (entry : String × List String) : Option PropagationAction :=
  if required_parent_tag ∈ entry.2 then
    let parts := pySplitDot2 entry.1
    let cols := meta.table_columns parts.1 parts.2.1 parts.2.2
    if column_name ∈ cols then
      some { table_fqn := entry.1, column_name := column_name
             tag_name := column_tag_name, tag_value := column_tag_value
             sql := actionSql parts.1 parts.2.1 parts.2.2 column_name
               column_tag_name column_tag_value }
    else none
  else none

/-- build_propagation_plan (utils/rls_abac_manager.py 127-182). -/
def build_propagation_plan (meta : Metadata)
    (parent_tag_name required_parent_tag column_name column_tag_name column_tag_value : String)
    (target_catalog target_schema : Option String) : List PropagationAction :=
  (tablesToProcess meta parent_tag_name target_catalog target_schema).filterMap
    (planEntryAction meta required_parent_tag column_name column_tag_name column_tag_value)

/-- Does a catalog-scope tag row cover the table with the given dict key. -/
def coversCatalog (meta : Metadata) (row : CatalogTagRow) (key : String) : Bool :=
  (meta.tables_in_catalog row.catalog_name).any
    (fun tr => tableKey tr.table_catalog tr.table_schema tr.table_name == key)

/-- Does a schema-scope tag row cover the table with the given dict key. -/
def coversSchema (meta : Metadata) (row : SchemaTagRow) (key : String) : Bool :=
  (meta.tables_in_schema row.catalog_name row.schema_name).any
    (fun tr => tableKey tr.table_catalog tr.table_schema tr.table_name == key)

/-- Does a table-scope tag row cover the table with the given dict key. -/
def coversTable (row : TableTagRow) (key : String) : Bool :=
  tableKey row.catalog_name row.schema_name row.table_name == key

/-- Specification-side accumulated category set of a table: the union of the
split category tokens of every catalog-, schema-, and table-scoped binding
covering it (membership in this list is the accumulated set of the spec). -/
def accumulatedCategories (meta : Metadata) (parent_tag_name : String)
    (target_catalog target_schema : Option String) (key : String) : List String :=
  (((meta.catalog_tags parent_tag_name target_catalog).filter
      (fun r => coversCatalog meta r key)).map
      (fun r => _split_rls_types r.tag_value)).flatten
    ++ (((meta.schema_tags parent_tag_name target_catalog target_schema).filter
      (fun r => coversSchema meta r key)).map
      (fun r => _split_rls_types r.tag_value)).flatten
    ++ (((meta.table_tags parent_tag_name target_catalog target_schema).filter
      (fun r => coversTable r key)).map
      (fun r => _split_rls_types r.tag_value)).flatten

/-- C3: whenever the admin-membership query raises (Except.error) or returns
no rows, check_admin_access returns false; an upstream fault never yields true. -/
theorem check_admin_access_fail_closed (outcome : Except String (List (Option Bool)))
    (h : (∃ e, outcome = Except.error e) ∨ outcome = Except.ok []) :
    check_admin_access outcome = false := by
  rcases h with ⟨e, rfl⟩ | rfl <;> rfl

/-- Witness for the admin fail-closed theorem at concrete outcomes. -/
theorem check_admin_access_fail_closed_witness :
    check_admin_access (Except.error "connection refused") = false ∧
    check_admin_access (Except.ok []) = false :=
  ⟨check_admin_access_fail_closed _ (Or.inl ⟨"connection refused", rfl⟩),
   check_admin_access_fail_closed _ (Or.inr rfl)⟩

/-- C9: when the customer_ids collection normalizes to the empty list, both the
INSERT statement of add_access_rule and the UPDATE statement of
update_access_rule interpolate the literal NULL (not an empty array), so the
persisted customer_ids is SQL NULL. -/
theorem empty_customer_ids_stored_as_null (tableFqn : String) (ids : List Int)
    (h : normalize_customer_ids ids = []) :
    (add_access_rule_stmt tableFqn ids).customerIdsSql = "NULL" ∧
    (update_access_rule_stmt tableFqn ids).customerIdsSql = "NULL" ∧
    storedCustomerIds ids = none := by
  refine ⟨?_, ?_, ?_⟩ <;>
    simp [add_access_rule_stmt, update_access_rule_stmt, customer_ids_array,
      storedCustomerIds, h]

/-- Witness: adding a rule with an empty id list stores NULL. -/
theorem empty_customer_ids_stored_as_null_witness :
    (add_access_rule_stmt "cat.sch.group_customer_access" []).customerIdsSql = "NULL" ∧
    (update_access_rule_stmt "cat.sch.group_customer_access" []).customerIdsSql = "NULL" ∧
    storedCustomerIds [] = none :=
  empty_customer_ids_stored_as_null "cat.sch.group_customer_access" [] (by rfl)

/-- C1 counterexample: an active EXCLUDE rule whose customer_ids collection is
empty is persisted with NULL customer_ids, and the generated row-filter
predicate is then TRUE for customer 7 (the claim requires it to be false for
every customer). -/
theorem exclude_empty_rule_counterexample :
    customer_access_filter (fun _ => true) 0
      [{ group_name := "analysts", customer_ids := storedCustomerIds []
         access_type := "EXCLUDE", effective_date := some 0, expiration_date := none }]
      7 = true := by rfl

/-- C1 amended: for every rule stored with access_type EXCLUDE and a
customer_ids collection that normalizes to the empty set, whenever the rule is
active and its group passes the membership check, the generated row-filter
predicate is TRUE for every customer id (unrestricted visibility). -/
theorem exclude_empty_rule_filter_unrestricted (ids : List Int)
    (h : normalize_customer_ids ids = [])
    (isMember : String → Bool) (today cid : Int) (g : String) (eff exp : Option Int)
    (hm : isMember g = true)
    (hactive : ruleActive today
      { group_name := g, customer_ids := storedCustomerIds ids
        access_type := "EXCLUDE", effective_date := eff, expiration_date := exp } = true) :
    customer_access_filter isMember today
      [{ group_name := g, customer_ids := storedCustomerIds ids
         access_type := "EXCLUDE", effective_date := eff, expiration_date := exp }]
      cid = true := by
  have hstored : storedCustomerIds ids = none := by simp [storedCustomerIds, h]
  rw [hstored] at hactive ⊢
  simp [customer_access_filter, ruleIdClause, hm, hactive]

/-- Witness for the amended C1 statement at a concrete rule and customer. -/
theorem exclude_empty_rule_filter_unrestricted_witness :
    customer_access_filter (fun _ => true) 5
      [{ group_name := "analysts", customer_ids := storedCustomerIds []
         access_type := "EXCLUDE", effective_date := some 1, expiration_date := some 9 }]
      42 = true :=
  exclude_empty_rule_filter_unrestricted [] (by rfl) (fun _ => true) 5 42 "analysts"
    (some 1) (some 9) (by rfl) (by rfl)

/-- C4 counterexample: when the underlying execute_update raises,
add_access_rule propagates the exception to its caller (the run model yields
Except.error, not a success/failure return value). -/
theorem add_access_rule_propagates_counterexample :
    add_access_rule_run (Except.error "connection failed")
      = Except.error "connection failed" := by rfl

/-- C4 amended: add_access_rule returns True (after writing an INSERT audit
record) when the underlying execute_update succeeds, but when execute_update
raises, the exception propagates uncaught to the caller; there is no caught
failure result. -/
theorem add_access_rule_outcome (outcome : Except String Nat) :
    (∀ e, outcome = Except.error e → add_access_rule_run outcome = Except.error e) ∧
    (∀ n, outcome = Except.ok n →
      ∃ log, add_access_rule_run outcome = Except.ok (true, log)) := by
  constructor
  · intro e he; subst he; rfl
  · intro n hn; subst hn; exact ⟨_, rfl⟩

/-- Witness for the amended C4 statement at concrete outcomes. -/
theorem add_access_rule_outcome_witness :
    add_access_rule_run (Except.error "timeout") = Except.error "timeout" ∧
    ∃ log, add_access_rule_run (Except.ok 1) = Except.ok (true, log) :=
  ⟨(add_access_rule_outcome (Except.error "timeout")).1 "timeout" rfl,
   (add_access_rule_outcome (Except.ok 1)).2 1 rfl⟩

/-- C2 counterexample: with two planned actions whose first statement fails,
apply_propagation attempts only the first statement (the second action is
never attempted) and returns no list at all (the exception propagates), while
the claim requires the second action to still be attempted and the call to
return the succeeded subset. -/
theorem apply_propagation_counterexample :
    apply_propagation_run (fun s => s == "A")
      [{ table_fqn := "c.s.t1", column_name := "cid", tag_name := "tg"
         tag_value := "v", sql := "A" },
       { table_fqn := "c.s.t2", column_name := "cid", tag_name := "tg"
         tag_value := "v", sql := "B" }]
      = (["A"], none) := by rfl

/-- All statements succeed: apply_propagation executes every planned statement
in order and returns the full list. -/
theorem apply_run_all_ok (fails : String → Bool) (actions : List PropagationAction)
    (h : ∀ a ∈ actions, fails a.sql = false) :
    apply_propagation_run fails actions
      = (actions.map (fun a => a.sql), some (actions.map (fun a => a.sql))) := by
  induction actions with
  | nil => rfl
  | cons a rest ih =>
    have ha : fails a.sql = false := h a (by simp)
    have hrest := ih (fun b hb => h b (by simp [hb]))
    simp [apply_propagation_run, ha, hrest]

/-- Some statement fails: apply_propagation executes the statements before it,
attempts the failing one, and the exception ends the loop with no return. -/
theorem apply_run_first_failure (fails : String → Bool)
    (pre : List PropagationAction) (act : PropagationAction) (post : List PropagationAction)
    (hpre : ∀ b ∈ pre, fails b.sql = false) (hact : fails act.sql = true) :
    apply_propagation_run fails (pre ++ act :: post)
      = (pre.map (fun a => a.sql) ++ [act.sql], none) := by
  induction pre with
  | nil => simp [apply_propagation_run, hact]
  | cons b rest ih =>
    have hb : fails b.sql = false := hpre b (by simp)
    have hrest := ih (fun x hx => hpre x (by simp [hx]))
    simp [apply_propagation_run, hb, hrest]

/-- C2 amended: when every statement succeeds, apply_propagation returns all
planned statements in plan order; but when some statement fails, execution
stops at the first failing action — the actions before it are executed, the
failing statement is attempted, the actions after it are never attempted, and
the exception propagates so that no list of successes is returned at all. -/
theorem apply_propagation_stops_at_first_failure (fails : String → Bool)
    (actions : List PropagationAction) :
    ((∀ a ∈ actions, fails a.sql = false) →
      apply_propagation_run fails actions
        = (actions.map (fun a => a.sql), some (actions.map (fun a => a.sql)))) ∧
    (∀ pre act post, actions = pre ++ act :: post →
      (∀ b ∈ pre, fails b.sql = false) → fails act.sql = true →
      apply_propagation_run fails actions
        = (pre.map (fun a => a.sql) ++ [act.sql], none)) := by
  constructor
  · exact apply_run_all_ok fails actions
  · intro pre act post heq hpre hact
    subst heq
    exact apply_run_first_failure fails pre act post hpre hact

/-- Sample propagation action used by the C2 witness. -/
def sampleActionA : PropagationAction :=
  { table_fqn := "c.s.t1", column_name := "cid", tag_name := "tg"
    tag_value := "v", sql := "A" }

/-- Second sample propagation action used by the C2 witness. -/
def sampleActionB : PropagationAction :=
  { table_fqn := "c.s.t2", column_name := "cid", tag_name := "tg"
    tag_value := "v", sql := "B" }

/-- Witness for the amended C2 statement: the second of two statements fails,
so the first executes, the second is attempted, and nothing is returned. -/
theorem apply_propagation_stops_at_first_failure_witness :
    apply_propagation_run (fun s => s == "B") [sampleActionA, sampleActionB]
      = (["A", "B"], none) :=
  (apply_propagation_stops_at_first_failure (fun s => s == "B")
      [sampleActionA, sampleActionB]).2
    [sampleActionA] sampleActionB [] rfl (by decide) (by decide)

/-- Helper: removing the rows satisfying p shortens the list exactly when some
row satisfies p. -/
theorem length_filter_not_lt_iff (p : RuleRow → Bool) (l : List RuleRow) :
    (l.filter (fun x => !(p x))).length < l.length ↔ ∃ x ∈ l, p x = true := by
  induction l with
  | nil => simp
  | cons a t ih =>
    by_cases h : p a = true
    · simp only [List.filter_cons, h, List.length_cons]
      constructor
      · intro _; exact ⟨a, by simp, h⟩
      · intro _
        simp only [Bool.not_true, Bool.false_eq_true, if_false]
        exact Nat.lt_succ_of_le (List.length_filter_le _ _)
    · have h2 : p a = false := by revert h; cases p a <;> simp
      simp [List.filter_cons, h2, ih, Nat.succ_lt_succ_iff]

/-- C5: delete_access_rule returns success only when some stored row has the
requested id and a non-null expiration date at or before today; when no row
with that id is expired, the call reports failure, removes nothing and writes
no audit entry; and a DELETE audit entry is written exactly when at least one
row was removed. -/
theorem delete_access_rule_expired_only (today rule_id : Int) (table : List RuleRow) :
    ((delete_access_rule today rule_id table).result = true →
      ∃ r ∈ table, r.id = rule_id ∧ ∃ d, r.expiration_date = some d ∧ d ≤ today) ∧
    ((∀ r ∈ table, r.id = rule_id →
        r.expiration_date = none ∨ ∃ d, r.expiration_date = some d ∧ today < d) →
      delete_access_rule today rule_id table
        = { remaining := table, audit := [], result := false }) ∧
    ((delete_access_rule today rule_id table).audit ≠ [] ↔
      (delete_access_rule today rule_id table).remaining.length < table.length) := by
  refine ⟨?_, ?_, ?_⟩
  · intro hres
    simp only [delete_access_rule, decide_eq_true_eq] at hres
    have hne : table.filter (deleteMatches today rule_id) ≠ [] := by
      intro hnil
      rw [hnil] at hres
      simp at hres
    obtain ⟨r, hrmem⟩ := List.exists_mem_of_ne_nil _ hne
    have hr := List.mem_filter.mp hrmem
    refine ⟨r, hr.1, ?_⟩
    have hm := hr.2
    simp only [deleteMatches, Bool.and_eq_true, beq_iff_eq] at hm
    refine ⟨hm.1, ?_⟩
    rcases hexp : r.expiration_date with _ | d
    · rw [hexp] at hm; simp at hm
    · rw [hexp] at hm
      simp only [decide_eq_true_eq] at hm
      exact ⟨d, rfl, hm.2⟩
  · intro hnone
    have hall : ∀ r ∈ table, deleteMatches today rule_id r = false := by
      intro r hr
      simp only [deleteMatches]
      rcases hid : (r.id == rule_id) with _ | _
      · simp
      · have hideq : r.id = rule_id := by simpa using hid
        rcases hnone r hr hideq with hnil | ⟨d, hd, hdt⟩
        · simp [hnil]
        · simp [hd]
          omega
    have hfilter : table.filter (deleteMatches today rule_id) = [] :=
      List.filter_eq_nil_iff.mpr (by intro a ha; simp [hall a ha])
    have hkeep : table.filter (fun r => !(deleteMatches today rule_id r)) = table :=
      List.filter_eq_self.mpr (by intro a ha; simp [hall a ha])
    simp [delete_access_rule, hfilter, hkeep]
  · constructor
    · intro haud
      simp only [delete_access_rule] at haud ⊢
      rcases hfil : (table.filter (deleteMatches today rule_id)).length with _ | n
      · rw [hfil] at haud; simp at haud
      · apply (length_filter_not_lt_iff (deleteMatches today rule_id) table).mpr
        have : table.filter (deleteMatches today rule_id) ≠ [] := by
          intro hnil; rw [hnil] at hfil; simp at hfil
        obtain ⟨r, hrmem⟩ := List.exists_mem_of_ne_nil _ this
        have hr := List.mem_filter.mp hrmem
        exact ⟨r, hr.1, hr.2⟩
    · intro hlt
      obtain ⟨r, hrmem, hrp⟩ := (length_filter_not_lt_iff (deleteMatches today rule_id) table).mp
        (by simpa [delete_access_rule] using hlt)
      simp only [delete_access_rule]
      have : table.filter (deleteMatches today rule_id) ≠ [] := by
        intro hnil
        have := List.mem_filter.mpr ⟨hrmem, hrp⟩
        rw [hnil] at this
        simp at this
      rcases hfil : (table.filter (deleteMatches today rule_id)).length with _ | n
      · exact absurd (List.length_eq_zero.mp hfil) this
      · simp

/-- Witness for the delete theorem: deleting a rule whose expiration date is
in the future fails, removes nothing and writes no audit entry. -/
theorem delete_access_rule_expired_only_witness :
    delete_access_rule 3 1 [{ id := 1, expiration_date := some 5 }]
      = { remaining := [{ id := 1, expiration_date := some 5 }]
          audit := [], result := false } :=
  (delete_access_rule_expired_only 3 1 [{ id := 1, expiration_date := some 5 }]).2.1
    (by
      intro r hr hid
      simp only [List.mem_singleton] at hr
      subst hr
      exact Or.inr ⟨5, rfl, by decide⟩)

/-- Dropping a prefix whose elements all fail the predicate is the identity. -/
theorem dropWhile_of_all_false {p : Char → Bool} {l : List Char}
    (h : ∀ c ∈ l, p c = false) : l.dropWhile p = l := by
  cases l with
  | nil => rfl
  | cons a t => simp [List.dropWhile_cons, h a (by simp)]

/-- A list with no whitespace characters is unchanged by pyStrip. -/
theorem pyStrip_eq_self {l : List Char} (h : ∀ c ∈ l, pyIsSpace c = false) :
    pyStrip l = l := by
  unfold pyStrip
  rw [dropWhile_of_all_false h]
  rw [dropWhile_of_all_false (by intro c hc; exact h c (List.mem_reverse.mp hc))]
  exact List.reverse_reverse l

/-- Characters of the stripped list come from the original list. -/
theorem mem_pyStrip {c : Char} {l : List Char} (h : c ∈ pyStrip l) : c ∈ l := by
  unfold pyStrip at h
  rw [List.mem_reverse] at h
  have h2 : c ∈ (l.dropWhile pyIsSpace).reverse :=
    (List.dropWhile_sublist pyIsSpace).subset h
  rw [List.mem_reverse] at h2
  exact (List.dropWhile_sublist pyIsSpace).subset h2

/-- sortedSet output is sorted ascending. -/
theorem sortedSet_sorted (l : List Int) :
    (sortedSet l).Sorted (fun a b => a ≤ b) :=
  List.sorted_insertionSort _ _

/-- sortedSet output has no duplicates. -/
theorem sortedSet_nodup (l : List Int) : (sortedSet l).Nodup :=
  (List.perm_insertionSort _ _).symm.nodup (List.nodup_dedup l)

/-- A successful parse returns a sorted, duplicate-free list. -/
theorem parse_ok_sorted_nodup (s : String) (ids : List Int)
    (h : parse_customer_ids s = Except.ok ids) :
    ids.Sorted (fun a b => a ≤ b) ∧ ids.Nodup := by
  unfold parse_customer_ids at h
  split at h
  · cases h
    exact ⟨List.sorted_nil, List.nodup_nil⟩
  · split at h
    · cases h
    · cases h
      exact ⟨sortedSet_sorted _, sortedSet_nodup _⟩

/-- C7: parse_customer_ids maps empty and whitespace-only input to success
with the empty list; maps "3-5" to 3,4,5; fails on the reversed range "5-3"
with a message naming that token; and every successful parse returns the ids
deduplicated and sorted ascending. -/
theorem parse_customer_ids_contract :
    parse_customer_ids "" = Except.ok [] ∧
    parse_customer_ids "   " = Except.ok [] ∧
    parse_customer_ids "3-5" = Except.ok [3, 4, 5] ∧
    parse_customer_ids "5-3" = Except.error ("Invalid range " ++ "5-3") ∧
    (∀ s ids, parse_customer_ids s = Except.ok ids →
      ids.Sorted (fun a b => a ≤ b) ∧ ids.Nodup) :=
  ⟨by rfl, by rfl, by rfl, by rfl, parse_ok_sorted_nodup⟩

/-- Witness for the sortedness clause of the parse contract at a concrete
successful parse. -/
theorem parse_customer_ids_contract_witness :
    ([1, 2] : List Int).Sorted (fun a b => a ≤ b) ∧ ([1, 2] : List Int).Nodup :=
  parse_customer_ids_contract.2.2.2.2 "2,1,2" [1, 2] (by rfl)

/-- A part that strips to the empty list is skipped by the token loop. -/
theorem processParts_skip {p : List Char} (rest : List (List Char))
    (h : pyStrip p = []) : processParts (p :: rest) = processParts rest := by
  simp only [processParts, h]
  rfl

/-- The token loop gives the same result when the strip-empty parts are
removed from the part list beforehand. -/
theorem processParts_filter (parts : List (List Char)) :
    processParts (parts.filter (fun p => !(pyStrip p).isEmpty)) = processParts parts := by
  induction parts with
  | nil => rfl
  | cons p rest ih =>
    by_cases h : pyStrip p = []
    · rw [List.filter_cons, if_neg (by simp [h]), ih, processParts_skip rest h]
    · rw [List.filter_cons, if_pos (by simp [h])]
      simp only [processParts]
      rw [ih]

/-- pySplit never returns an empty list of parts. -/
theorem pySplit_ne_nil (sep : Char) (l : List Char) : pySplit sep l ≠ [] := by
  induction l with
  | nil => simp [pySplit]
  | cons c rest ih =>
    by_cases h : c = sep
    · simp [pySplit, h]
    · simp only [pySplit, if_neg h]
      rcases hsp : pySplit sep rest with _ | ⟨p, ps⟩
      · exact absurd hsp ih
      · simp

/-- Splitting a list without the separator yields that single part. -/
theorem pySplit_no_sep {sep : Char} {l : List Char} (h : sep ∉ l) :
    pySplit sep l = [l] := by
  induction l with
  | nil => rfl
  | cons c rest ih =>
    have hc : ¬c = sep := fun he => h (by simp [he])
    have hr := ih (fun hm => h (by simp [hm]))
    simp [pySplit, hc, hr]

/-- Splitting past a separator-free part peels off exactly that part. -/
theorem pySplit_append {sep : Char} {t : List Char} (rest : List Char) (h : sep ∉ t) :
    pySplit sep (t ++ sep :: rest) = t :: pySplit sep rest := by
  induction t with
  | nil => simp [pySplit]
  | cons c tt ih =>
    have hc : ¬c = sep := fun he => h (by simp [he])
    have hr := ih (fun hm => h (by simp [hm]))
    simp only [List.cons_append, pySplit, if_neg hc]
    rw [show tt.append (sep :: rest) = tt ++ sep :: rest from rfl, hr]

/-- Splitting the join of separator-free parts returns exactly those parts. -/
theorem pySplit_pyJoin {sep : Char} (tokens : List (List Char))
    (h1 : tokens ≠ []) (h2 : ∀ t ∈ tokens, sep ∉ t) :
    pySplit sep (pyJoin sep tokens) = tokens := by
  induction tokens with
  | nil => exact absurd rfl h1
  | cons t ts ih =>
    cases ts with
    | nil => exact pySplit_no_sep (h2 t (by simp))
    | cons t2 ts2 =>
      have hjoin : pyJoin sep (t :: t2 :: ts2) = t ++ sep :: pyJoin sep (t2 :: ts2) := rfl
      rw [hjoin, pySplit_append _ (h2 t (by simp))]
      rw [ih (by simp) (fun x hx => h2 x (by simp [hx]))]

/-- Every part returned by pySplit is free of the separator. -/
theorem mem_pySplit_no_sep {sep : Char} {l : List Char} {t : List Char}
    (h : t ∈ pySplit sep l) : sep ∉ t := by
  induction l generalizing t with
  | nil =>
    simp only [pySplit, List.mem_singleton] at h
    subst h; simp
  | cons c rest ih =>
    by_cases hc : c = sep
    · simp only [pySplit, if_pos hc, List.mem_cons] at h
      rcases h with h | h
      · subst h; simp
      · exact ih h
    · simp only [pySplit, if_neg hc] at h
      rcases hsp : pySplit sep rest with _ | ⟨p, ps⟩
      · exact absurd hsp (pySplit_ne_nil sep rest)
      · rw [hsp, List.mem_cons] at h
        rcases h with h | h
        · subst h
          intro hm
          rcases List.mem_cons.mp hm with he | hp
          · exact hc he.symm
          · exact ih (by rw [hsp]; exact List.mem_cons_self p ps) hp
        · exact ih (by rw [hsp]; exact List.mem_cons.mpr (Or.inr h))

/-- A character of some joined part is a character of the join. -/
theorem mem_pyJoin_of_mem {sep c : Char} {tokens : List (List Char)} {t : List Char}
    (ht : t ∈ tokens) (hc : c ∈ t) : c ∈ pyJoin sep tokens := by
  induction tokens with
  | nil => cases ht
  | cons u us ih =>
    cases us with
    | nil =>
      simp only [List.mem_singleton] at ht
      subst ht; exact hc
    | cons u2 us2 =>
      have hjoin : pyJoin sep (u :: u2 :: us2) = u ++ sep :: pyJoin sep (u2 :: us2) := rfl
      rw [hjoin]
      rcases List.mem_cons.mp ht with he | hmem
      · subst he; exact List.mem_append.mpr (Or.inl hc)
      · exact List.mem_append.mpr (Or.inr (List.mem_cons.mpr (Or.inr (ih hmem))))

/-- Every character of the join is the separator or comes from some part. -/
theorem mem_pyJoin {sep c : Char} {tokens : List (List Char)}
    (h : c ∈ pyJoin sep tokens) : c = sep ∨ ∃ t ∈ tokens, c ∈ t := by
  induction tokens with
  | nil => cases h
  | cons u us ih =>
    cases us with
    | nil =>
      exact Or.inr ⟨u, by simp, h⟩
    | cons u2 us2 =>
      have hjoin : pyJoin sep (u :: u2 :: us2) = u ++ sep :: pyJoin sep (u2 :: us2) := rfl
      rw [hjoin] at h
      rcases List.mem_append.mp h with h | h
      · exact Or.inr ⟨u, by simp, h⟩
      · rcases List.mem_cons.mp h with he | h
        · exact Or.inl he
        · rcases ih h with he | ⟨t, htm, hct⟩
          · exact Or.inl he
          · exact Or.inr ⟨t, by simp [htm], hct⟩

/-- A member failing the predicate survives dropWhile. -/
theorem mem_dropWhile_of_false {p : Char → Bool} {l : List Char} {c : Char}
    (hm : c ∈ l) (hp : p c = false) : c ∈ l.dropWhile p := by
  induction l with
  | nil => cases hm
  | cons a t ih =>
    by_cases ha : p a = true
    · rw [List.dropWhile_cons, if_pos ha]
      rcases List.mem_cons.mp hm with he | hmem
      · subst he; rw [hp] at ha; cases ha
      · exact ih hmem
    · rw [List.dropWhile_cons, if_neg ha]
      exact hm

/-- A non-whitespace member survives pyStrip. -/
theorem mem_pyStrip_of_not_space {l : List Char} {c : Char}
    (hm : c ∈ l) (hp : pyIsSpace c = false) : c ∈ pyStrip l := by
  unfold pyStrip
  rw [List.mem_reverse]
  exact mem_dropWhile_of_false (List.mem_reverse.mpr (mem_dropWhile_of_false hm hp)) hp

/-- If pyStrip empties a list, every character of it was whitespace. -/
theorem pyStrip_nil_all_space {l : List Char} (h : pyStrip l = []) :
    ∀ c ∈ l, pyIsSpace c = true := by
  intro c hc
  by_cases hp : pyIsSpace c = true
  · exact hp
  · have : c ∈ pyStrip l :=
      mem_pyStrip_of_not_space hc (by revert hp; cases pyIsSpace c <;> simp)
    rw [h] at this
    cases this

/-- Characters of a pySplit part come from the split list. -/
theorem mem_pySplit_subset {sep : Char} {l t : List Char} {c : Char}
    (ht : t ∈ pySplit sep l) (hc : c ∈ t) : c ∈ l := by
  induction l generalizing t with
  | nil =>
    simp only [pySplit, List.mem_singleton] at ht
    subst ht; cases hc
  | cons a rest ih =>
    by_cases ha : a = sep
    · simp only [pySplit, if_pos ha, List.mem_cons] at ht
      rcases ht with ht | ht
      · subst ht; cases hc
      · exact List.mem_cons.mpr (Or.inr (ih ht hc))
    · simp only [pySplit, if_neg ha] at ht
      rcases hsp : pySplit sep rest with _ | ⟨p, ps⟩
      · exact absurd hsp (pySplit_ne_nil sep rest)
      · rw [hsp, List.mem_cons] at ht
        rcases ht with ht | ht
        · subst ht
          rcases List.mem_cons.mp hc with he | hp
          · exact List.mem_cons.mpr (Or.inl he)
          · exact List.mem_cons.mpr
              (Or.inr (ih (by rw [hsp]; exact List.mem_cons_self p ps) hp))
        · exact List.mem_cons.mpr
            (Or.inr (ih (by rw [hsp]; exact List.mem_cons.mpr (Or.inr ht)) hc))

/-- A list of whitespace characters strips to the empty list. -/
theorem pyStrip_nil_of_all_space {t : List Char} (h : ∀ c ∈ t, pyIsSpace c = true) :
    pyStrip t = [] := by
  unfold pyStrip
  rw [List.dropWhile_eq_nil_iff.mpr h]
  rfl

/-- Specification-side rendering of an input string with its empty (or
whitespace-only) comma tokens removed, for comparison against parse. -/
def dropEmptyTokens (s : String) : String :=
  String.mk (pyJoin ',' ((pySplit ',' s.toList).filter (fun p => !(pyStrip p).isEmpty)))

/-- C10: empty tokens between commas (or leading/trailing commas) are skipped:
parsing any input gives exactly the result of parsing the input with its empty
tokens removed, and in particular "1,,2," succeeds with 1,2 — an empty token
never causes an error. -/
theorem parse_skips_empty_tokens :
    parse_customer_ids "1,,2," = Except.ok [1, 2] ∧
    ∀ s, parse_customer_ids s = parse_customer_ids (dropEmptyTokens s) := by
  refine ⟨by rfl, ?_⟩
  intro s
  by_cases hA : s.toList = [] ∨ pyStrip s.toList = []
  · have hws : ∀ c ∈ s.toList, pyIsSpace c = true := by
      rcases hA with h | h
      · rw [h]; intro c hc; cases hc
      · exact pyStrip_nil_all_space h
    have hfilt : (pySplit ',' s.toList).filter (fun p => !(pyStrip p).isEmpty) = [] := by
      apply List.filter_eq_nil_iff.mpr
      intro t ht
      have hstrip : pyStrip t = [] :=
        pyStrip_nil_of_all_space (fun c hc => hws c (mem_pySplit_subset ht hc))
      simp [hstrip]
    have hL : parse_customer_ids s = Except.ok [] := by
      unfold parse_customer_ids
      rw [if_pos hA]
    have hR : parse_customer_ids (dropEmptyTokens s) = Except.ok [] := by
      unfold dropEmptyTokens
      rw [hfilt]
      rfl
    rw [hL, hR]
  · have hfilterEq := processParts_filter (pySplit ',' s.toList)
    rcases hfc : (pySplit ',' s.toList).filter (fun p => !(pyStrip p).isEmpty)
      with _ | ⟨f, fs⟩
    · have hL : parse_customer_ids s = Except.ok [] := by
        unfold parse_customer_ids
        rw [if_neg hA, ← hfilterEq, hfc]
        rfl
      have hR : parse_customer_ids (dropEmptyTokens s) = Except.ok [] := by
        unfold dropEmptyTokens
        rw [hfc]
        rfl
      rw [hL, hR]
    · have hfmem : f ∈ (pySplit ',' s.toList).filter (fun p => !(pyStrip p).isEmpty) := by
        rw [hfc]; exact List.mem_cons_self f fs
      have hfparts := List.mem_filter.mp hfmem
      have hfkeep : pyStrip f ≠ [] := by
        have := hfparts.2
        simp only [Bool.not_eq_true'] at this
        intro hnil
        rw [hnil] at this
        simp at this
      obtain ⟨c, hcf, hcws⟩ : ∃ c ∈ f, pyIsSpace c = false := by
        by_contra hno
        push_neg at hno
        exact hfkeep (pyStrip_nil_of_all_space (by
          intro c hc
          have := hno c hc
          revert this; cases pyIsSpace c <;> simp))
      have hcl2 : c ∈ pyJoin ','
          ((pySplit ',' s.toList).filter (fun p => !(pyStrip p).isEmpty)) :=
        mem_pyJoin_of_mem hfmem hcf
      have hl2ne : pyJoin ','
          ((pySplit ',' s.toList).filter (fun p => !(pyStrip p).isEmpty)) ≠ [] :=
        List.ne_nil_of_mem hcl2
      have hl2strip : pyStrip (pyJoin ','
          ((pySplit ',' s.toList).filter (fun p => !(pyStrip p).isEmpty))) ≠ [] :=
        List.ne_nil_of_mem (mem_pyStrip_of_not_space hcl2 hcws)
      have hsplit2 : pySplit ',' (pyJoin ','
          ((pySplit ',' s.toList).filter (fun p => !(pyStrip p).isEmpty)))
          = (pySplit ',' s.toList).filter (fun p => !(pyStrip p).isEmpty) := by
        apply pySplit_pyJoin
        · rw [hfc]; simp
        · intro t htf
          exact mem_pySplit_no_sep (List.mem_filter.mp htf).1
      have hR : parse_customer_ids (dropEmptyTokens s)
          = match processParts
              ((pySplit ',' s.toList).filter (fun p => !(pyStrip p).isEmpty)) with
            | Except.error e => Except.error (perrMessage e)
            | Except.ok ids => Except.ok (sortedSet ids) := by
        unfold parse_customer_ids dropEmptyTokens
        rw [if_neg (by
          push_neg
          exact ⟨hl2ne, hl2strip⟩)]
        simp only [String.toList] at hsplit2 ⊢
        rw [hsplit2]
      rw [hR, hfilterEq]
      unfold parse_customer_ids
      rw [if_neg hA]

/-- The character of a decimal digit is a digit character with the expected
code point. -/
theorem char_ofNat_digit_facts (d : Nat) (h : d < 10) :
    (Char.ofNat (48 + d)).isDigit = true ∧ (Char.ofNat (48 + d)).toNat = 48 + d := by
  interval_cases d <;> exact ⟨by decide, by decide⟩

/-- Unfolding natDigits below ten. -/
theorem natDigits_lt (n : Nat) (h : n < 10) : natDigits n = [Char.ofNat (48 + n)] := by
  rw [natDigits]
  exact dif_pos h

/-- Unfolding natDigits at ten and above. -/
theorem natDigits_ge (n : Nat) (h : ¬n < 10) :
    natDigits n = natDigits (n / 10) ++ [Char.ofNat (48 + n % 10)] := by
  conv_lhs => rw [natDigits]
  exact dif_neg h

/-- Every character of natDigits is a digit. -/
theorem natDigits_all_digit (n : Nat) : ∀ c ∈ natDigits n, c.isDigit = true := by
  induction n using Nat.strong_induction_on with
  | _ n ih =>
    by_cases h : n < 10
    · rw [natDigits_lt n h]
      intro c hc
      simp only [List.mem_singleton] at hc
      subst hc
      exact (char_ofNat_digit_facts n h).1
    · rw [natDigits_ge n h]
      intro c hc
      rcases List.mem_append.mp hc with hc | hc
      · exact ih (n / 10) (Nat.div_lt_self (by omega) (by omega)) c hc
      · simp only [List.mem_singleton] at hc
        subst hc
        exact (char_ofNat_digit_facts (n % 10) (Nat.mod_lt n (by omega))).1

/-- natDigits is never empty. -/
theorem natDigits_ne_nil (n : Nat) : natDigits n ≠ [] := by
  by_cases h : n < 10
  · rw [natDigits_lt n h]; simp
  · rw [natDigits_ge n h]; simp

/-- On an all-digit list the accumulator loop of pyInt succeeds and computes
the left fold of the digit values. -/
theorem pyDigitsGo_digits : ∀ l : List Char, (∀ c ∈ l, c.isDigit = true) →
    ∀ acc, pyDigitsGo acc l
      = some (l.foldl (fun a c => 10 * a + (c.toNat - 48)) acc) := by
  intro l
  induction l with
  | nil => intro _ acc; rfl
  | cons c rest ih =>
    intro h acc
    have hc : c.isDigit = true := h c (by simp)
    have hcu : ¬(c = '_') := by
      intro he; subst he; exact absurd hc (by decide)
    rw [pyDigitsGo.eq_def]
    split
    · rename_i heq
      simp at heq
    · rename_i d2 r2 heq
      rw [List.cons.injEq] at heq
      obtain ⟨h1, h2⟩ := heq
      subst h1
      subst h2
      rw [if_neg hcu, if_pos hc]
      rw [ih (fun x hx => h x (List.mem_cons.mpr (Or.inr hx)))]
      rfl

/-- The left fold of digit values over natDigits n recovers n. -/
theorem foldl_natDigits (n : Nat) : ∀ acc,
    (natDigits n).foldl (fun a c => 10 * a + (c.toNat - 48)) acc
      = acc * 10 ^ (natDigits n).length + n := by
  induction n using Nat.strong_induction_on with
  | _ n ih =>
    intro acc
    by_cases h : n < 10
    · rw [natDigits_lt n h]
      simp only [List.foldl_cons, List.foldl_nil, List.length_singleton]
      rw [(char_ofNat_digit_facts n h).2, pow_one]
      omega
    · rw [natDigits_ge n h]
      rw [List.foldl_append]
      rw [ih (n / 10) (Nat.div_lt_self (by omega) (by omega)) acc]
      simp only [List.foldl_cons, List.foldl_nil]
      rw [(char_ofNat_digit_facts (n % 10) (Nat.mod_lt n (by omega))).2]
      rw [List.length_append, List.length_singleton]
      have h48 : 48 + n % 10 - 48 = n % 10 := by omega
      rw [h48, pow_succ]
      have hdm : 10 * (n / 10) + n % 10 = n := Nat.div_add_mod n 10
      calc 10 * (acc * 10 ^ (natDigits (n / 10)).length + n / 10) + n % 10
          = acc * (10 ^ (natDigits (n / 10)).length * 10)
              + (10 * (n / 10) + n % 10) := by ring
        _ = acc * (10 ^ (natDigits (n / 10)).length * 10) + n := by rw [hdm]

/-- A digit character is not whitespace and differs from the separator and
sign characters used by the parser. -/
theorem isDigit_facts (c : Char) (h : c.isDigit = true) :
    pyIsSpace c = false ∧ c ≠ '-' ∧ c ≠ '+' ∧ c ≠ ',' ∧ c ≠ '_' := by
  have h1 : c ≠ ' ' := fun he => by subst he; exact absurd h (by decide)
  have h2 : c ≠ '\t' := fun he => by subst he; exact absurd h (by decide)
  have h3 : c ≠ '\n' := fun he => by subst he; exact absurd h (by decide)
  have h4 : c ≠ '\r' := fun he => by subst he; exact absurd h (by decide)
  have h5 : c ≠ Char.ofNat 11 := fun he => by subst he; exact absurd h (by decide)
  have h6 : c ≠ Char.ofNat 12 := fun he => by subst he; exact absurd h (by decide)
  have h7 : c ≠ '-' := fun he => by subst he; exact absurd h (by decide)
  have h8 : c ≠ '+' := fun he => by subst he; exact absurd h (by decide)
  have h9 : c ≠ ',' := fun he => by subst he; exact absurd h (by decide)
  have h10 : c ≠ '_' := fun he => by subst he; exact absurd h (by decide)
  refine ⟨?_, h7, h8, h9, h10⟩
  simp [pyIsSpace, h1, h2, h3, h4, h5, h6]

/-- pyInt reads back the decimal rendering of a natural number. -/
theorem pyInt_natDigits (n : Nat) : pyInt (natDigits n) = some (n : Int) := by
  have hdig := natDigits_all_digit n
  have hstrip : pyStrip (natDigits n) = natDigits n :=
    pyStrip_eq_self (fun c hc => (isDigit_facts c (hdig c hc)).1)
  obtain ⟨c, rest, hcons⟩ := List.exists_cons_of_ne_nil (natDigits_ne_nil n)
  have hc : c.isDigit = true := hdig c (by rw [hcons]; simp)
  have hfacts := isDigit_facts c hc
  have hgo : pyDigitsGo 0 (natDigits n) = some n := by
    rw [pyDigitsGo_digits (natDigits n) hdig 0, foldl_natDigits n 0]
    simp
  unfold pyInt
  rw [hstrip, hcons]
  split
  · rename_i heq
    cases heq
  · rename_i r heq
    rw [List.cons.injEq] at heq
    exact absurd heq.1 hfacts.2.1
  · rename_i r heq
    rw [List.cons.injEq] at heq
    exact absurd heq.1 hfacts.2.2.1
  · rename_i c2 r2 hne1 hne2 heq
    rw [List.cons.injEq] at heq
    obtain ⟨hc2, hr2⟩ := heq
    subst hc2
    subst hr2
    rw [if_pos hc, ← hcons, hgo]
    rfl

/-- splitOnce returns none exactly when the separator is absent. -/
theorem splitOnce_none_iff (sep : Char) (l : List Char) :
    splitOnce sep l = none ↔ sep ∉ l := by
  induction l with
  | nil => simp [splitOnce]
  | cons c rest ih =>
    by_cases hc : c = sep
    · subst hc
      simp [splitOnce]
    · simp only [splitOnce, if_neg hc, Option.map_eq_none', ih, List.mem_cons]
      constructor
      · intro hn hm
        rcases hm with hm | hm
        · exact hc hm.symm
        · exact hn hm
      · intro hn hm
        exact hn (Or.inr hm)

/-- The part before the first separator occurrence is separator-free. -/
theorem splitOnce_fst_no_sep {sep : Char} {l a b : List Char}
    (h : splitOnce sep l = some (a, b)) : sep ∉ a := by
  induction l generalizing a b with
  | nil => cases h
  | cons c rest ih =>
    by_cases hc : c = sep
    · subst hc
      simp only [splitOnce, if_true] at h
      rw [Option.some.injEq, Prod.mk.injEq] at h
      rw [← h.1]
      simp
    · simp only [splitOnce, if_neg hc, Option.map_eq_some'] at h
      obtain ⟨⟨p1, p2⟩, hp, he⟩ := h
      rw [Prod.mk.injEq] at he
      rw [← he.1]
      intro hm
      rcases List.mem_cons.mp hm with hm | hm
      · exact hc hm.symm
      · exact ih hp hm

/-- pyInt on a dash-free string never returns a negative value. -/
theorem pyInt_nonneg_of_no_dash {l : List Char} (h : ('-' : Char) ∉ l) {v : Int}
    (hv : pyInt l = some v) : 0 ≤ v := by
  unfold pyInt at hv
  split at hv
  · cases hv
  · rename_i r heq
    have hmm : ('-' : Char) ∈ pyStrip l := by rw [heq]; simp
    exact absurd (mem_pyStrip hmm) h
  · rename_i r heq
    split at hv
    · cases hv
    · split at hv
      · rw [Option.map_eq_some'] at hv
        obtain ⟨nn, _, he⟩ := hv
        rw [← he]
        exact Int.ofNat_nonneg nn
      · cases hv
  · rename_i c2 r2 heq hne1 hne2
    split at hv
    · rw [Option.map_eq_some'] at hv
      obtain ⟨nn, _, he⟩ := hv
      rw [← he]
      exact Int.ofNat_nonneg nn
    · cases hv

/-- Members of rangeInts with a non-negative start are non-negative. -/
theorem rangeInts_nonneg {a b x : Int} (ha : 0 ≤ a) (hm : x ∈ rangeInts a b) :
    0 ≤ x := by
  simp only [rangeInts, List.mem_map, List.mem_range, Int.ofNat_eq_coe] at hm
  obtain ⟨k, hk, hke⟩ := hm
  omega

/-- Every id produced by a successful run of the token loop is non-negative. -/
theorem processParts_ok_nonneg : ∀ parts ids, processParts parts = Except.ok ids →
    ∀ x ∈ ids, 0 ≤ x := by
  intro parts
  induction parts with
  | nil =>
    intro ids h x hx
    cases h
    cases hx
  | cons p rest ih =>
    intro ids h x hx
    simp only [processParts] at h
    by_cases hp : pyStrip p = []
    · rw [if_pos hp] at h
      exact ih ids h x hx
    · rw [if_neg hp] at h
      split at h
      · rename_i sr er hso
        split at h
        · cases h
        · rename_i a hpa
          split at h
          · cases h
          · rename_i b hpb
            split at h
            · cases h
            · rename_i hba
              split at h
              · cases h
              · rename_i ids2 hpp
                cases h
                have ha : 0 ≤ a := by
                  apply pyInt_nonneg_of_no_dash ?hnd hpa
                  intro hm2
                  exact splitOnce_fst_no_sep hso (mem_pyStrip hm2)
                rcases List.mem_append.mp hx with hm | hm
                · exact rangeInts_nonneg ha hm
                · exact ih ids2 hpp x hm
      · rename_i hso
        split at h
        · cases h
        · rename_i v hpi
          split at h
          · cases h
          · rename_i ids2 hpp
            cases h
            rcases List.mem_cons.mp hx with he | hm
            · subst he
              exact pyInt_nonneg_of_no_dash
                (fun hm2 => (splitOnce_none_iff '-' (pyStrip p)).mp hso hm2) hpi
            · exact ih ids2 hpp x hm

/-- A successful parse returns only non-negative ids. -/
theorem parse_ok_nonneg (s : String) (ids : List Int)
    (h : parse_customer_ids s = Except.ok ids) : ∀ x ∈ ids, 0 ≤ x := by
  unfold parse_customer_ids at h
  split at h
  · cases h
    intro x hx
    cases hx
  · split at h
    · cases h
    · rename_i ids0 heq
      cases h
      intro x hx
      have hx0 : x ∈ ids0 := by
        have hp := List.perm_insertionSort (fun a b => a ≤ b) ids0.dedup
        have hmem := hp.mem_iff.mp (by simpa [sortedSet] using hx)
        exact List.mem_dedup.mp hmem
      exact processParts_ok_nonneg _ ids0 heq x hx0

/-- sortedSet fixes a list that is already sorted and duplicate-free. -/
theorem sortedSet_eq_self {l : List Int} (h1 : l.Sorted (fun a b => a ≤ b))
    (h2 : l.Nodup) : sortedSet l = l := by
  unfold sortedSet
  rw [List.dedup_eq_self.mpr h2]
  exact h1.insertionSort_eq

/-- The decimal rendering of a non-negative int is all digits. -/
theorem pyStrInt_digits (x : Int) (h : 0 ≤ x) :
    ∀ c ∈ pyStrInt x, c.isDigit = true := by
  rw [pyStrInt, if_neg (not_lt.mpr h)]
  exact natDigits_all_digit _

/-- pyInt reads back the decimal rendering of a non-negative int. -/
theorem pyInt_pyStrInt (x : Int) (h : 0 ≤ x) : pyInt (pyStrInt x) = some x := by
  rw [pyStrInt, if_neg (not_lt.mpr h), pyInt_natDigits]
  rw [Int.toNat_of_nonneg h]

/-- The token loop maps the rendered tokens of non-negative ids back to those
ids, in order. -/
theorem processParts_render : ∀ ids : List Int, (∀ x ∈ ids, 0 ≤ x) →
    processParts (ids.map pyStrInt) = Except.ok ids := by
  intro ids
  induction ids with
  | nil => intro _; rfl
  | cons x rest ih =>
    intro h
    have hx : 0 ≤ x := h x (by simp)
    have hdig := pyStrInt_digits x hx
    have hstrip : pyStrip (pyStrInt x) = pyStrInt x :=
      pyStrip_eq_self (fun c hc => (isDigit_facts c (hdig c hc)).1)
    have hne : pyStrInt x ≠ [] := by
      rw [pyStrInt, if_neg (not_lt.mpr hx)]
      exact natDigits_ne_nil _
    have hnodash : ('-' : Char) ∉ pyStrInt x :=
      fun hm => (isDigit_facts _ (hdig _ hm)).2.1 rfl
    simp only [List.map_cons, processParts]
    rw [hstrip, if_neg hne]
    rw [(splitOnce_none_iff '-' (pyStrInt x)).mpr hnodash]
    rw [pyInt_pyStrInt x hx]
    rw [ih (fun y hy => h y (List.mem_cons.mpr (Or.inr hy)))]

/-- C8: normalize_customer_ids is idempotent, and for every string accepted by
parse_customer_ids, re-parsing the comma-joined str() rendering of the parsed
output returns exactly the same ids. -/
theorem normalize_idempotent_and_parse_reparse :
    (∀ values, normalize_customer_ids (normalize_customer_ids values)
      = normalize_customer_ids values) ∧
    (∀ s ids, parse_customer_ids s = Except.ok ids →
      parse_customer_ids (String.mk (pyJoin ',' (ids.map pyStrInt)))
        = Except.ok ids) := by
  constructor
  · intro values
    unfold normalize_customer_ids
    exact sortedSet_eq_self (sortedSet_sorted values) (sortedSet_nodup values)
  · intro s ids hok
    have hsn := parse_ok_sorted_nodup s ids hok
    have hnn := parse_ok_nonneg s ids hok
    by_cases hnil : ids = []
    · subst hnil
      rfl
    · have htne : ids.map pyStrInt ≠ [] := by simpa using hnil
      have htokdig : ∀ t ∈ ids.map pyStrInt, ∀ c ∈ t, c.isDigit = true := by
        intro t ht c hc
        rw [List.mem_map] at ht
        obtain ⟨x, hx, hxe⟩ := ht
        rw [← hxe] at hc
        exact pyStrInt_digits x (hnn x hx) c hc
      have htoknosep : ∀ t ∈ ids.map pyStrInt, (',' : Char) ∉ t :=
        fun t ht hm => (isDigit_facts _ (htokdig t ht _ hm)).2.2.2.1 rfl
      obtain ⟨t0, ts, htcons⟩ := List.exists_cons_of_ne_nil htne
      have ht0mem : t0 ∈ ids.map pyStrInt := by rw [htcons]; simp
      have ht0ne : t0 ≠ [] := by
        have ht0m2 := ht0mem
        rw [List.mem_map] at ht0m2
        obtain ⟨x, hx, hxe⟩ := ht0m2
        rw [← hxe, pyStrInt, if_neg (not_lt.mpr (hnn x hx))]
        exact natDigits_ne_nil _
      obtain ⟨c0, t0rest, ht0cons⟩ := List.exists_cons_of_ne_nil ht0ne
      have hc0t0 : c0 ∈ t0 := by rw [ht0cons]; simp
      have hc0 : c0 ∈ pyJoin ',' (ids.map pyStrInt) := mem_pyJoin_of_mem ht0mem hc0t0
      have hc0dig : c0.isDigit = true := htokdig t0 ht0mem c0 hc0t0
      have hc0ws : pyIsSpace c0 = false := (isDigit_facts c0 hc0dig).1
      have hjne : pyJoin ',' (ids.map pyStrInt) ≠ [] := List.ne_nil_of_mem hc0
      have hjstrip : pyStrip (pyJoin ',' (ids.map pyStrInt)) ≠ [] :=
        List.ne_nil_of_mem (mem_pyStrip_of_not_space hc0 hc0ws)
      have hlist : (String.mk (pyJoin ',' (ids.map pyStrInt))).toList
          = pyJoin ',' (ids.map pyStrInt) := rfl
      unfold parse_customer_ids
      rw [hlist]
      rw [if_neg (by push_neg; exact ⟨hjne, hjstrip⟩)]
      rw [pySplit_pyJoin (ids.map pyStrInt) htne htoknosep]
      rw [processParts_render ids hnn]
      exact congrArg Except.ok (sortedSet_eq_self hsn.1 hsn.2)

/-- Witness for the reparse clause at a concrete accepted string. -/
theorem normalize_idempotent_and_parse_reparse_witness :
    parse_customer_ids (String.mk (pyJoin ',' (([1, 3] : List Int).map pyStrInt)))
      = Except.ok [1, 3] :=
  normalize_idempotent_and_parse_reparse.2 "3,1,3" [1, 3] (by rfl)

/-- Lookup after a dict update: the updated key carries its previous tokens
with the new ones appended, every other key is untouched. -/
theorem assocFind_dictUpdate (m : TMap) (k k2 : String) (toks : List String) :
    assocFind (dictUpdate m k toks) k2
      = if k2 = k then some (tokensAt m k ++ toks) else assocFind m k2 := by
  induction m with
  | nil =>
    by_cases h : k2 = k
    · subst h
      simp [dictUpdate, assocFind, tokensAt]
    · simp [dictUpdate, assocFind, tokensAt, h, Ne.symm h]
  | cons e rest ih =>
    obtain ⟨k3, v⟩ := e
    by_cases h3 : k3 = k
    · subst h3
      by_cases h2 : k2 = k3
      · subst h2
        simp [dictUpdate, assocFind, tokensAt]
      · simp [dictUpdate, assocFind, tokensAt, h2, Ne.symm h2]
    · by_cases h2 : k2 = k
      · subst h2
        have h32 : ¬(k3 = k2) := h3
        simp only [dictUpdate, if_neg h3, assocFind, if_neg h32, ih, if_pos rfl,
          tokensAt, Option.some.injEq]
      · by_cases h32 : k3 = k2
        · subst h32
          simp [dictUpdate, assocFind, h3, h2, ih]
        · simp [dictUpdate, assocFind, h3, h2, h32, ih]

/-- tokensAt after a dict update. -/
theorem tokensAt_dictUpdate (m : TMap) (k k2 : String) (toks : List String) :
    tokensAt (dictUpdate m k toks) k2
      = if k2 = k then tokensAt m k ++ toks else tokensAt m k2 := by
  unfold tokensAt
  rw [assocFind_dictUpdate]
  by_cases h : k2 = k
  · simp [h, tokensAt]
  · simp [h, tokensAt]

/-- Membership in the accumulated tokens after folding one token list over a
list of enumerated tables. -/
theorem mem_tokensAt_foldTables (toks : List String) (trs : List TableRow)
    (m : TMap) (k tok : String) :
    tok ∈ tokensAt (trs.foldl (fun acc tr =>
        dictUpdate acc (tableKey tr.table_catalog tr.table_schema tr.table_name) toks) m) k
      ↔ tok ∈ tokensAt m k ∨
        ((∃ tr ∈ trs, tableKey tr.table_catalog tr.table_schema tr.table_name = k)
          ∧ tok ∈ toks) := by
  induction trs generalizing m with
  | nil => simp
  | cons tr rest ih =>
    rw [List.foldl_cons, ih]
    rw [tokensAt_dictUpdate]
    by_cases hk : tableKey tr.table_catalog tr.table_schema tr.table_name = k
    · rw [if_pos hk.symm, hk]
      simp only [List.mem_append, List.exists_mem_cons_iff, hk]
      tauto
    · rw [if_neg (fun he => hk he.symm)]
      simp only [List.exists_mem_cons_iff, hk]
      tauto

/-- Accumulation of one catalog-scope tag row, membership view. -/
theorem mem_tokensAt_planFoldCatalog (meta : Metadata) (m : TMap)
    (row : CatalogTagRow) (k tok : String) :
    tok ∈ tokensAt (planFoldCatalog meta m row) k
      ↔ tok ∈ tokensAt m k ∨
        (coversCatalog meta row k = true ∧ tok ∈ _split_rls_types row.tag_value) := by
  unfold planFoldCatalog coversCatalog
  rw [mem_tokensAt_foldTables]
  simp [List.any_eq_true, beq_iff_eq]

/-- Accumulation of one schema-scope tag row, membership view. -/
theorem mem_tokensAt_planFoldSchema (meta : Metadata) (m : TMap)
    (row : SchemaTagRow) (k tok : String) :
    tok ∈ tokensAt (planFoldSchema meta m row) k
      ↔ tok ∈ tokensAt m k ∨
        (coversSchema meta row k = true ∧ tok ∈ _split_rls_types row.tag_value) := by
  unfold planFoldSchema coversSchema
  rw [mem_tokensAt_foldTables]
  simp [List.any_eq_true, beq_iff_eq]

/-- Accumulation of one table-scope tag row, membership view. -/
theorem mem_tokensAt_planFoldTable (m : TMap) (row : TableTagRow) (k tok : String) :
    tok ∈ tokensAt (planFoldTable m row) k
      ↔ tok ∈ tokensAt m k ∨
        (coversTable row k = true ∧ tok ∈ _split_rls_types row.tag_value) := by
  unfold planFoldTable coversTable
  rw [tokensAt_dictUpdate]
  by_cases hk : tableKey row.catalog_name row.schema_name row.table_name = k
  · rw [if_pos hk.symm, hk]
    simp [beq_iff_eq, hk]
  · rw [if_neg (fun he => hk he.symm)]
    simp [beq_iff_eq, hk]

/-- Accumulation over all catalog-scope rows, membership view. -/
theorem mem_tokensAt_foldCatalogRows (meta : Metadata) (rows : List CatalogTagRow)
    (m : TMap) (k tok : String) :
    tok ∈ tokensAt (rows.foldl (planFoldCatalog meta) m) k
      ↔ tok ∈ tokensAt m k ∨
        ∃ row ∈ rows, coversCatalog meta row k = true
          ∧ tok ∈ _split_rls_types row.tag_value := by
  induction rows generalizing m with
  | nil => simp
  | cons r rest ih =>
    rw [List.foldl_cons, ih, mem_tokensAt_planFoldCatalog]
    simp only [List.exists_mem_cons_iff]
    tauto

/-- Accumulation over all schema-scope rows, membership view. -/
theorem mem_tokensAt_foldSchemaRows (meta : Metadata) (rows : List SchemaTagRow)
    (m : TMap) (k tok : String) :
    tok ∈ tokensAt (rows.foldl (planFoldSchema meta) m) k
      ↔ tok ∈ tokensAt m k ∨
        ∃ row ∈ rows, coversSchema meta row k = true
          ∧ tok ∈ _split_rls_types row.tag_value := by
  induction rows generalizing m with
  | nil => simp
  | cons r rest ih =>
    rw [List.foldl_cons, ih, mem_tokensAt_planFoldSchema]
    simp only [List.exists_mem_cons_iff]
    tauto

/-- Accumulation over all table-scope rows, membership view. -/
theorem mem_tokensAt_foldTableRows (rows : List TableTagRow)
    (m : TMap) (k tok : String) :
    tok ∈ tokensAt (rows.foldl planFoldTable m) k
      ↔ tok ∈ tokensAt m k ∨
        ∃ row ∈ rows, coversTable row k = true
          ∧ tok ∈ _split_rls_types row.tag_value := by
  induction rows generalizing m with
  | nil => simp
  | cons r rest ih =>
    rw [List.foldl_cons, ih, mem_tokensAt_planFoldTable]
    simp only [List.exists_mem_cons_iff]
    tauto

/-- The accumulated tokens of the tables_to_process dict are exactly the
specification-side union of the categories of all covering bindings. -/
theorem mem_tokensAt_tablesToProcess (meta : Metadata) (ptag : String)
    (tc ts : Option String) (k tok : String) :
    tok ∈ tokensAt (tablesToProcess meta ptag tc ts) k
      ↔ tok ∈ accumulatedCategories meta ptag tc ts k := by
  unfold tablesToProcess accumulatedCategories
  rw [mem_tokensAt_foldTableRows, mem_tokensAt_foldSchemaRows, mem_tokensAt_foldCatalogRows]
  simp only [tokensAt, assocFind, Option.getD_none, List.not_mem_nil, false_or,
    List.mem_append, List.mem_flatten, List.mem_map, List.mem_filter]
  constructor
  · intro h
    rcases h with (⟨row, hrow, hc, hm⟩ | ⟨row, hrow, hc, hm⟩) | ⟨row, hrow, hc, hm⟩
    · exact Or.inl (Or.inl ⟨_, ⟨row, ⟨hrow, hc⟩, rfl⟩, hm⟩)
    · exact Or.inl (Or.inr ⟨_, ⟨row, ⟨hrow, hc⟩, rfl⟩, hm⟩)
    · exact Or.inr ⟨_, ⟨row, ⟨hrow, hc⟩, rfl⟩, hm⟩
  · intro h
    rcases h with (⟨l2, ⟨row, ⟨hrow, hc⟩, hle⟩, hm⟩ | ⟨l2, ⟨row, ⟨hrow, hc⟩, hle⟩, hm⟩)
      | ⟨l2, ⟨row, ⟨hrow, hc⟩, hle⟩, hm⟩
    · exact Or.inl (Or.inl ⟨row, hrow, hc, hle ▸ hm⟩)
    · exact Or.inl (Or.inr ⟨row, hrow, hc, hle ▸ hm⟩)
    · exact Or.inr ⟨row, hrow, hc, hle ▸ hm⟩

/-- The keys of the dict after an update: unchanged when the key is present,
extended by it at the end otherwise. -/
theorem keys_dictUpdate (m : TMap) (k : String) (toks : List String) :
    (dictUpdate m k toks).map (fun e => e.1)
      = if k ∈ m.map (fun e => e.1) then m.map (fun e => e.1)
        else m.map (fun e => e.1) ++ [k] := by
  induction m with
  | nil => simp [dictUpdate]
  | cons e rest ih =>
    obtain ⟨k3, v⟩ := e
    by_cases h3 : k3 = k
    · subst h3
      simp [dictUpdate]
    · simp only [dictUpdate, if_neg h3, List.map_cons, ih]
      by_cases hin : k ∈ rest.map (fun e => e.1)
      · rw [if_pos hin, if_pos (by simp [hin])]
      · rw [if_neg hin, if_neg (by
          simp only [List.map_cons, List.mem_cons]
          push_neg
          exact ⟨fun he => h3 he.symm, hin⟩)]
        simp

/-- dictUpdate preserves distinctness of the dict keys. -/
theorem keys_nodup_dictUpdate (m : TMap) (k : String) (toks : List String)
    (h : (m.map (fun e => e.1)).Nodup) :
    ((dictUpdate m k toks).map (fun e => e.1)).Nodup := by
  rw [keys_dictUpdate]
  by_cases hin : k ∈ m.map (fun e => e.1)
  · rw [if_pos hin]; exact h
  · rw [if_neg hin]
    simp [List.nodup_append, h, hin]

/-- A fold whose every step preserves distinct keys preserves distinct keys. -/
theorem keys_nodup_foldl {α : Type} (f : TMap → α → TMap)
    (hf : ∀ m a, ((m.map (fun e => e.1)).Nodup) → (((f m a).map (fun e => e.1)).Nodup)) :
    ∀ (l : List α) (m : TMap), ((m.map (fun e => e.1)).Nodup) →
      (((l.foldl f m).map (fun e => e.1)).Nodup) := by
  intro l
  induction l with
  | nil => intro m hm; exact hm
  | cons a rest ih =>
    intro m hm
    rw [List.foldl_cons]
    exact ih (f m a) (hf m a hm)

/-- The tables_to_process dict has distinct keys. -/
theorem keys_nodup_tablesToProcess (meta : Metadata) (ptag : String)
    (tc ts : Option String) :
    ((tablesToProcess meta ptag tc ts).map (fun e => e.1)).Nodup := by
  unfold tablesToProcess
  apply keys_nodup_foldl planFoldTable
    (fun m a hm => keys_nodup_dictUpdate _ _ _ hm)
  apply keys_nodup_foldl (planFoldSchema meta)
    (fun m a hm => keys_nodup_foldl _ (fun m2 a2 hm2 => keys_nodup_dictUpdate _ _ _ hm2) _ m hm)
  apply keys_nodup_foldl (planFoldCatalog meta)
    (fun m a hm => keys_nodup_foldl _ (fun m2 a2 hm2 => keys_nodup_dictUpdate _ _ _ hm2) _ m hm)
  simp

/-- A successful assocFind exhibits a dict entry. -/
theorem assocFind_some_mem {m : TMap} {k : String} {v : List String}
    (h : assocFind m k = some v) : (k, v) ∈ m := by
  induction m with
  | nil => cases h
  | cons e rest ih =>
    obtain ⟨k3, v3⟩ := e
    by_cases h3 : k3 = k
    · subst h3
      simp only [assocFind, eq_self_iff_true, if_true, Option.some.injEq] at h
      subst h
      simp
    · simp only [assocFind, if_neg h3] at h
      exact List.mem_cons.mpr (Or.inr (ih h))

/-- With distinct keys, a dict entry is found by assocFind. -/
theorem mem_assocFind_of_nodup {m : TMap} (hnd : (m.map (fun e => e.1)).Nodup)
    {k : String} {v : List String} (h : (k, v) ∈ m) : assocFind m k = some v := by
  induction m with
  | nil => cases h
  | cons e rest ih =>
    obtain ⟨k3, v3⟩ := e
    rw [List.map_cons, List.nodup_cons] at hnd
    rcases List.mem_cons.mp h with he | hm
    · rw [Prod.mk.injEq] at he
      obtain ⟨he1, he2⟩ := he
      subst he1
      subst he2
      simp [assocFind]
    · have hne : ¬(k3 = k) := by
        intro he
        subst he
        exact hnd.1 (by
          simp only [List.mem_map]
          exact ⟨(k3, v), hm, rfl⟩)
      simp only [assocFind, if_neg hne]
      exact ih hnd.2 hm

/-- Every planned action's table key is a key of the dict. -/
theorem plan_key_mem_keys {f : String × List String → Option PropagationAction}
    (hf : ∀ e a, f e = some a → a.table_fqn = e.1) :
    ∀ (m : TMap) (a : PropagationAction), a ∈ m.filterMap f →
      a.table_fqn ∈ m.map (fun e => e.1) := by
  intro m
  induction m with
  | nil => intro a ha; cases ha
  | cons e rest ih =>
    intro a ha
    rw [List.filterMap_cons] at ha
    rcases hfe : f e with _ | a2
    · rw [hfe] at ha
      exact List.mem_cons.mpr (Or.inr (ih a ha))
    · rw [hfe] at ha
      rcases List.mem_cons.mp ha with he | hm
      · subst he
        exact List.mem_cons.mpr (Or.inl (hf e a hfe))
      · exact List.mem_cons.mpr (Or.inr (ih a hm))

/-- With distinct dict keys, the planned actions carry distinct table keys. -/
theorem plan_keys_nodup {f : String × List String → Option PropagationAction}
    (hf : ∀ e a, f e = some a → a.table_fqn = e.1) :
    ∀ (m : TMap), ((m.map (fun e => e.1)).Nodup) →
      ((m.filterMap f).map (fun a => a.table_fqn)).Nodup := by
  intro m
  induction m with
  | nil => intro _; simp
  | cons e rest ih =>
    intro hnd
    rw [List.map_cons, List.nodup_cons] at hnd
    rw [List.filterMap_cons]
    rcases hfe : f e with _ | a2
    · exact ih hnd.2
    · rw [List.map_cons, List.nodup_cons]
      refine ⟨?_, ih hnd.2⟩
      intro hmem
      rw [List.mem_map] at hmem
      obtain ⟨a3, ha3, hae⟩ := hmem
      have := plan_key_mem_keys hf rest a3 ha3
      rw [hae, hf e a2 hfe] at this
      exact hnd.1 this

/-- What a successful action emission says about its dict entry. -/
theorem planEntryAction_some (meta : Metadata)
    (req col ctn ctv : String) (entry : String × List String) (a : PropagationAction)
    (h : planEntryAction meta req col ctn ctv entry = some a) :
    a.table_fqn = entry.1 ∧ req ∈ entry.2 ∧
      col ∈ meta.table_columns (pySplitDot2 entry.1).1 (pySplitDot2 entry.1).2.1
        (pySplitDot2 entry.1).2.2 ∧
      a.column_name = col ∧ a.tag_name = ctn ∧ a.tag_value = ctv := by
  simp only [planEntryAction] at h
  by_cases h1 : req ∈ entry.2
  · rw [if_pos h1] at h
    by_cases h2 : col ∈ meta.table_columns (pySplitDot2 entry.1).1
        (pySplitDot2 entry.1).2.1 (pySplitDot2 entry.1).2.2
    · rw [if_pos h2] at h
      cases h
      exact ⟨rfl, h1, h2, rfl, rfl, rfl⟩
    · rw [if_neg h2] at h
      cases h
  · rw [if_neg h1] at h
    cases h

/-- A qualifying dict entry emits an action with the expected fields. -/
theorem planEntryAction_mk (meta : Metadata)
    (req col ctn ctv : String) (entry : String × List String)
    (h1 : req ∈ entry.2)
    (h2 : col ∈ meta.table_columns (pySplitDot2 entry.1).1 (pySplitDot2 entry.1).2.1
      (pySplitDot2 entry.1).2.2) :
    ∃ a, planEntryAction meta req col ctn ctv entry = some a ∧ a.table_fqn = entry.1
      ∧ a.column_name = col ∧ a.tag_name = ctn ∧ a.tag_value = ctv := by
  simp only [planEntryAction]
  rw [if_pos h1, if_pos h2]
  exact ⟨_, rfl, rfl, rfl, rfl, rfl⟩

/-- C6: build_propagation_plan emits exactly one action per table key whose
specification-side accumulated category set (the union over all covering
catalog-, schema-, and table-scope bindings of their comma-split,
whitespace-trimmed, non-empty tokens) contains the required tag and whose
column list contains the requested column; every other table key yields no
action, the emitted table keys are pairwise distinct, and every action carries
the requested column and tag pair. -/
theorem build_propagation_plan_characterization
    (meta : Metadata) (ptag req col ctn ctv : String) (tc ts : Option String) :
    (∀ k, (∃ a ∈ build_propagation_plan meta ptag req col ctn ctv tc ts, a.table_fqn = k)
        ↔ (req ∈ accumulatedCategories meta ptag tc ts k ∧
           col ∈ meta.table_columns (pySplitDot2 k).1 (pySplitDot2 k).2.1
             (pySplitDot2 k).2.2)) ∧
    ((build_propagation_plan meta ptag req col ctn ctv tc ts).map
      (fun a => a.table_fqn)).Nodup ∧
    (∀ a ∈ build_propagation_plan meta ptag req col ctn ctv tc ts,
      a.column_name = col ∧ a.tag_name = ctn ∧ a.tag_value = ctv) := by
  have hnd := keys_nodup_tablesToProcess meta ptag tc ts
  have hf : ∀ e a, planEntryAction meta req col ctn ctv e = some a → a.table_fqn = e.1 :=
    fun e a h => (planEntryAction_some meta req col ctn ctv e a h).1
  refine ⟨?_, ?_, ?_⟩
  · intro k
    constructor
    · rintro ⟨a, ha, hak⟩
      unfold build_propagation_plan at ha
      rw [List.mem_filterMap] at ha
      obtain ⟨entry, hentry, hfe⟩ := ha
      obtain ⟨hkey, hreq, hcol, _, _, _⟩ :=
        planEntryAction_some meta req col ctn ctv entry a hfe
      have hk1 : entry.1 = k := by rw [← hak, hkey]
      have hfind : assocFind (tablesToProcess meta ptag tc ts) entry.1 = some entry.2 :=
        mem_assocFind_of_nodup hnd (by
          obtain ⟨e1, e2⟩ := entry
          exact hentry)
      have htk : tokensAt (tablesToProcess meta ptag tc ts) entry.1 = entry.2 := by
        unfold tokensAt
        rw [hfind]
        rfl
      refine ⟨?_, by rw [← hk1]; exact hcol⟩
      rw [← mem_tokensAt_tablesToProcess meta ptag tc ts k req]
      rw [← hk1, htk]
      exact hreq
    · rintro ⟨hreq, hcol⟩
      rw [← mem_tokensAt_tablesToProcess] at hreq
      rcases hfind : assocFind (tablesToProcess meta ptag tc ts) k with _ | v
      · unfold tokensAt at hreq
        rw [hfind] at hreq
        exact absurd hreq (by simp)
      · have hmem : (k, v) ∈ tablesToProcess meta ptag tc ts := assocFind_some_mem hfind
        have hreqv : req ∈ v := by
          unfold tokensAt at hreq
          rw [hfind] at hreq
          exact hreq
        obtain ⟨a, hsome, hfqn, hcn, htn, htv⟩ :=
          planEntryAction_mk meta req col ctn ctv (k, v) hreqv hcol
        refine ⟨a, ?_, hfqn⟩
        unfold build_propagation_plan
        rw [List.mem_filterMap]
        exact ⟨(k, v), hmem, hsome⟩
  · unfold build_propagation_plan
    exact plan_keys_nodup hf _ hnd
  · intro a ha
    unfold build_propagation_plan at ha
    rw [List.mem_filterMap] at ha
    obtain ⟨entry, hentry, hfe⟩ := ha
    obtain ⟨_, _, _, hcn, htn, htv⟩ :=
      planEntryAction_some meta req col ctn ctv entry a hfe
    exact ⟨hcn, htn, htv⟩

/-- Sample metadata snapshot for the plan-characterization witness: one
catalog tagged "A,B", the table additionally tagged "C", one table with a
customer_id column. -/
def sampleMeta : Metadata :=
  { catalog_tags := fun tn tc =>
      if tn = "rls" ∧ tc = none then [{ catalog_name := "cat", tag_value := "A,B" }] else []
    schema_tags := fun _ _ _ => []
    table_tags := fun tn _ _ =>
      if tn = "rls" then
        [{ catalog_name := "cat", schema_name := "sch", table_name := "t1", tag_value := "C" }]
      else []
    tables_in_catalog := fun c =>
      if c = "cat" then [{ table_catalog := "cat", table_schema := "sch", table_name := "t1" }]
      else []
    tables_in_schema := fun _ _ => []
    table_columns := fun _ _ t => if t = "t1" then ["customer_id"] else [] }

/-- Witness for the plan characterization: on the sample metadata the table
accumulates the categories A, B and C, carries the customer_id column, and
the characterization yields its action. -/
theorem build_propagation_plan_characterization_witness :
    ("B" ∈ accumulatedCategories sampleMeta "rls" none none "cat.sch.t1" ∧
      "customer_id" ∈ sampleMeta.table_columns (pySplitDot2 "cat.sch.t1").1
        (pySplitDot2 "cat.sch.t1").2.1 (pySplitDot2 "cat.sch.t1").2.2) ∧
    (∃ a ∈ build_propagation_plan sampleMeta "rls" "B" "customer_id" "ctag" "true" none none,
      a.table_fqn = "cat.sch.t1") :=
  ⟨⟨by decide, by decide⟩,
   ((build_propagation_plan_characterization sampleMeta "rls" "B" "customer_id"
        "ctag" "true" none none).1 "cat.sch.t1").mpr ⟨by decide, by decide⟩⟩
